import Mathlib

/-!
Verification of the da-crawl content crawler (src/crawl.js): the bounded
frontier traversal scheduler in `crawl`, the blank-page classifier in the
per-file callback, and the publish pipeline.  JavaScript strings are
embedded as Lean `String` (lists of characters), the DOM body as an
abstract element view exposing exactly the fields the source reads, and
the scheduler as a small-step transition relation whose atomic steps are
the synchronous segments of the source's `setInterval` callback.
-/

set_option autoImplicit false

namespace DaCrawl

/-! ### JavaScript whitespace, `trim`, `replace(/\s+/g, ' ')`, `/[a-zA-Z]{3,}/` -/

/-- The character class `\s` of JavaScript regular expressions (also the set
trimmed by `String.prototype.trim`). -/
def isJsWs (c : Char) : Bool :=
  c == ' ' || c == '\t' || c == '\n' || c == '\r' || c == '\x0b' || c == '\x0c' ||
  c == '\u00A0' || c == '\u1680' || c == '\u2000' || c == '\u2001' || c == '\u2002' ||
  c == '\u2003' || c == '\u2004' || c == '\u2005' || c == '\u2006' || c == '\u2007' ||
  c == '\u2008' || c == '\u2009' || c == '\u200A' || c == '\u2028' || c == '\u2029' ||
  c == '\u202F' || c == '\u205F' || c == '\u3000' || c == '\uFEFF'

/-- Drop leading whitespace characters. -/
def dropLead (l : List Char) : List Char := l.dropWhile isJsWs

/-- Drop trailing whitespace characters. -/
def dropTrail : List Char → List Char
  | [] => []
  | c :: rest =>
    let r := dropTrail rest
    if r.isEmpty then (if isJsWs c then [] else [c]) else c :: r

/-- `String.prototype.trim`. -/
def jsTrim (s : String) : String := ⟨dropTrail (dropLead s.data)⟩

/-- One pass of `replace(/\s+/g, ' ')`: the flag records whether the previous
character was part of a whitespace run (whose first character has already been
replaced by a single space). -/
def collapseGo : Bool → List Char → List Char
  | _, [] => []
  | inWs, c :: rest =>
    if isJsWs c then
      if inWs then collapseGo true rest else ' ' :: collapseGo true rest
    else c :: collapseGo false rest

def collapseL (l : List Char) : List Char := collapseGo false l

/-- `s.replace(/\s+/g, ' ')`. -/
def collapseWs (s : String) : String := ⟨collapseL s.data⟩

def isAsciiAlpha (c : Char) : Bool :=
  ('a' ≤ c && c ≤ 'z') || ('A' ≤ c && c ≤ 'Z')

/-- Scanner for `/[a-zA-Z]{3,}/`: `k` counts the current run of ASCII letters;
the match succeeds as soon as a run reaches length three. -/
def alphaRunGo : Nat → List Char → Bool
  | _, [] => false
  | k, c :: rest =>
    if isAsciiAlpha c then (if 3 ≤ k + 1 then true else alphaRunGo (k + 1) rest)
    else alphaRunGo 0 rest

/-- `cleanText.match(/[a-zA-Z]{3,}/)` is non-null. -/
def hasAlphaRun3 (s : String) : Bool := alphaRunGo 0 s.data

/-! ### Normalization facts

The source computes `bodyText.replace(/\s+/g, ' ').trim()` where `bodyText`
is already `body.textContent.trim()`; the classifier contract in the spec
normalizes the raw text with collapse-then-trim only.  The lemmas below
show the two agree: trimming before collapsing is absorbed. -/

theorem ws_space : isJsWs ' ' = true := by decide

theorem dropLead_cons_nonws {c : Char} {l : List Char} (hc : isJsWs c = false) :
    dropLead (c :: l) = c :: l := by
  simp [dropLead, List.dropWhile_cons, hc]

theorem dropLead_cons_ws {c : Char} {l : List Char} (hc : isJsWs c = true) :
    dropLead (c :: l) = dropLead l := by
  simp [dropLead, List.dropWhile_cons, hc]

theorem dropLead_head_nonws : ∀ {l t : List Char} {c : Char},
    dropLead l = c :: t → isJsWs c = false := by
  intro l
  induction l with
  | nil => intro t c h; cases h
  | cons d r ih =>
    intro t c h
    cases hd : isJsWs d
    · rw [dropLead_cons_nonws hd] at h
      cases h
      exact hd
    · rw [dropLead_cons_ws hd] at h
      exact ih h

theorem dropLead_length_le : ∀ (l : List Char), (dropLead l).length ≤ l.length := by
  intro l
  induction l with
  | nil => exact Nat.le_refl 0
  | cons d r ih =>
    cases hd : isJsWs d
    · rw [dropLead_cons_nonws hd]
    · rw [dropLead_cons_ws hd]
      exact Nat.le_trans ih (Nat.le_succ _)

theorem dropLead_eq_nil {l : List Char} (h : ∀ x ∈ l, isJsWs x = true) :
    dropLead l = [] := by
  induction l with
  | nil => rfl
  | cons d r ih =>
    rw [dropLead_cons_ws (h d (List.mem_cons_self d r))]
    exact ih (fun x hx => h x (List.mem_cons_of_mem d hx))

theorem dropTrail_cons_nil {c : Char} {r : List Char} (hr : dropTrail r = [])
    (hc : isJsWs c = true) : dropTrail (c :: r) = [] := by
  simp [dropTrail, hr, hc]

theorem dropTrail_cons_ne {c : Char} {r : List Char} (hr : ¬dropTrail r = []) :
    dropTrail (c :: r) = c :: dropTrail r := by
  cases hd : dropTrail r with
  | nil => exact absurd hd hr
  | cons x xs => simp [dropTrail, hd]

theorem dropTrail_cons_nonws {c : Char} {r : List Char} (hc : isJsWs c = false) :
    dropTrail (c :: r) = c :: dropTrail r := by
  by_cases hd : dropTrail r = []
  · simp [dropTrail, hd, hc]
  · exact dropTrail_cons_ne hd

theorem dropTrail_cons_congr {x y : List Char} {c : Char}
    (h : dropTrail x = dropTrail y) : dropTrail (c :: x) = dropTrail (c :: y) := by
  simp only [dropTrail]
  rw [h]

theorem all_ws_of_dropTrail_nil : ∀ {l : List Char}, dropTrail l = [] →
    ∀ x ∈ l, isJsWs x = true := by
  intro l
  induction l with
  | nil => intro _ x hx; cases hx
  | cons d r ih =>
    intro h x hx
    by_cases hd : dropTrail r = []
    · have hdw : isJsWs d = true := by
        cases hw : isJsWs d
        · rw [dropTrail_cons_nonws hw, hd] at h
          cases h
        · rfl
      cases hx with
      | head => exact hdw
      | tail _ hx2 => exact ih hd x hx2
    · rw [dropTrail_cons_ne hd] at h
      cases h

theorem collapseGo_true (r : List Char) :
    collapseGo true r = collapseL (dropLead r) := by
  induction r with
  | nil => rfl
  | cons d t ih =>
    cases hd : isJsWs d
    · rw [dropLead_cons_nonws hd]
      simp [collapseGo, collapseL, hd]
    · rw [dropLead_cons_ws hd, ← ih]
      simp [collapseGo, hd]

theorem collapse_ws {c : Char} {r : List Char} (hc : isJsWs c = true) :
    collapseL (c :: r) = ' ' :: collapseL (dropLead r) := by
  rw [← collapseGo_true]
  simp [collapseL, collapseGo, hc]

theorem collapse_nonws {c : Char} {r : List Char} (hc : isJsWs c = false) :
    collapseL (c :: r) = c :: collapseL r := by
  simp [collapseL, collapseGo, hc]

theorem dropLead_dropTrail_comm : ∀ (l : List Char),
    dropLead (dropTrail l) = dropTrail (dropLead l) := by
  intro l
  induction l with
  | nil => rfl
  | cons c r ih =>
    cases hc : isJsWs c
    · rw [dropTrail_cons_nonws hc, dropLead_cons_nonws hc,
        dropLead_cons_nonws hc, dropTrail_cons_nonws hc]
    · by_cases hd : dropTrail r = []
      · rw [dropTrail_cons_nil hd hc, dropLead_cons_ws hc, ← ih, hd]
      · rw [dropTrail_cons_ne hd, dropLead_cons_ws hc, dropLead_cons_ws hc, ih]

theorem trail_absorb_aux : ∀ (n : Nat) (l : List Char), l.length ≤ n →
    dropTrail (collapseL (dropTrail l)) = dropTrail (collapseL l) := by
  intro n
  induction n with
  | zero =>
    intro l h
    have hl : l = [] := List.eq_nil_of_length_eq_zero (Nat.le_zero.mp h)
    subst hl
    rfl
  | succ n ih =>
    intro l h
    cases l with
    | nil => rfl
    | cons c r =>
      have hr_le : r.length ≤ n := Nat.le_of_succ_le_succ h
      cases hc : isJsWs c
      · calc dropTrail (collapseL (dropTrail (c :: r)))
            = dropTrail (collapseL (c :: dropTrail r)) := by
              rw [dropTrail_cons_nonws hc]
          _ = dropTrail (c :: collapseL (dropTrail r)) := by
              rw [collapse_nonws hc]
          _ = c :: dropTrail (collapseL (dropTrail r)) := dropTrail_cons_nonws hc
          _ = c :: dropTrail (collapseL r) := by rw [ih r hr_le]
          _ = dropTrail (c :: collapseL r) := (dropTrail_cons_nonws hc).symm
          _ = dropTrail (collapseL (c :: r)) := by rw [collapse_nonws hc]
      · by_cases hd : dropTrail r = []
        · have hlead : dropLead r = [] :=
            dropLead_eq_nil (all_ws_of_dropTrail_nil hd)
          rw [dropTrail_cons_nil hd hc, collapse_ws hc, hlead]
          decide
        · have hlen : (dropLead r).length ≤ n :=
            Nat.le_trans (dropLead_length_le r) hr_le
          calc dropTrail (collapseL (dropTrail (c :: r)))
              = dropTrail (collapseL (c :: dropTrail r)) := by
                rw [dropTrail_cons_ne hd]
            _ = dropTrail (' ' :: collapseL (dropLead (dropTrail r))) := by
                rw [collapse_ws hc]
            _ = dropTrail (' ' :: collapseL (dropTrail (dropLead r))) := by
                rw [dropLead_dropTrail_comm]
            _ = dropTrail (' ' :: collapseL (dropLead r)) :=
                dropTrail_cons_congr (ih (dropLead r) hlen)
            _ = dropTrail (collapseL (c :: r)) := by rw [collapse_ws hc]

theorem trail_absorb (l : List Char) :
    dropTrail (collapseL (dropTrail l)) = dropTrail (collapseL l) :=
  trail_absorb_aux l.length l (Nat.le_refl _)

theorem lead_absorb (l : List Char) :
    dropLead (collapseL (dropLead l)) = dropLead (collapseL l) := by
  cases l with
  | nil => rfl
  | cons c r =>
    cases hc : isJsWs c
    · rw [dropLead_cons_nonws hc]
    · rw [dropLead_cons_ws hc, collapse_ws hc, dropLead_cons_ws ws_space]

theorem norm_trim_absorb (l : List Char) :
    dropTrail (dropLead (collapseL (dropTrail (dropLead l)))) =
      dropTrail (dropLead (collapseL l)) := by
  rw [← lead_absorb l]
  cases hu : dropLead l with
  | nil => rfl
  | cons c t =>
    have hc : isJsWs c = false := dropLead_head_nonws hu
    calc dropTrail (dropLead (collapseL (dropTrail (c :: t))))
        = dropTrail (dropLead (collapseL (c :: dropTrail t))) := by
          rw [dropTrail_cons_nonws hc]
      _ = dropTrail (dropLead (c :: collapseL (dropTrail t))) := by
          rw [collapse_nonws hc]
      _ = dropTrail (c :: collapseL (dropTrail t)) := by
          rw [dropLead_cons_nonws hc]
      _ = c :: dropTrail (collapseL (dropTrail t)) := dropTrail_cons_nonws hc
      _ = c :: dropTrail (collapseL t) := by rw [trail_absorb t]
      _ = dropTrail (c :: collapseL t) := (dropTrail_cons_nonws hc).symm
      _ = dropTrail (dropLead (c :: collapseL t)) := by
          rw [dropLead_cons_nonws hc]
      _ = dropTrail (dropLead (collapseL (c :: t))) := by
          rw [collapse_nonws hc]

/-- The source's `trim`-then-collapse-then-`trim` normalization equals the
spec's collapse-then-`trim` normalization. -/
theorem clean_of_trim (s : String) :
    jsTrim (collapseWs (jsTrim s)) = jsTrim (collapseWs s) := by
  unfold jsTrim collapseWs
  exact congrArg String.mk (norm_trim_absorb s.data)

/-- One entry of the JSON array returned by `GET <base>/list/<path>`: a
child path plus an optional extension; per the API, presence of `ext` marks
a file and absence marks a folder (the source tests `child.ext` for
truthiness, which coincides with presence for the non-empty extensions the
API serves). -/
structure ListedChild where
  path : String
  ext : Option String
deriving DecidableEq

/-! ### The DOM body view and the blank-page classifier

The source parses the fetched markup with a DOM parser and reads exactly
these properties of `dom.body`: `textContent`, `innerHTML`, `outerHTML`,
`children.length` and `children[0].textContent`.  `Element` records that
view (children are represented by their `textContent`, the only property
the source reads from them); `dom.body` itself may be null, hence
`Option Element` below. -/

structure Element where
  textContent : String
  innerHTML : String
  outerHTML : String
  childrenTexts : List String
deriving DecidableEq

/-- A parsed document: `new DOMParser().parseFromString(text, ..)` followed by
reading `.body`. -/
structure Doc where
  body : Option Element
deriving DecidableEq

/-- `const bodyText = body ? body.textContent.trim() : '';` -/
def bodyTextOf : Option Element → String
  | some b => jsTrim b.textContent
  | none => ""

/-- `const bodyHTML = body ? body.innerHTML.trim() : '';` -/
def bodyHTMLOf : Option Element → String
  | some b => jsTrim b.innerHTML
  | none => ""

/-- The `isBlankPage` disjunction of src/crawl.js lines 97–112, verbatim:
`cleanText`/`cleanHTML` are the whitespace-collapsed, trimmed text and
markup, and the child-element conditions are guarded by the truthiness of
`body`. -/
def isBlankPage (body : Option Element) : Bool :=
  let cleanText := jsTrim (collapseWs (bodyTextOf body))
  let cleanHTML := jsTrim (collapseWs (bodyHTMLOf body))
  cleanText == "" ||
  cleanHTML == "" ||
  cleanText.length == 0 ||
  cleanHTML.length == 0 ||
  cleanText == " " ||
  cleanHTML == " " ||
  (match body with
   | some b => b.childrenTexts.length == 0
   | none => false) ||
  (match body with
   | some b => b.childrenTexts.length == 1 && jsTrim (b.childrenTexts.headD "") == ""
   | none => false) ||
  (decide (cleanText.length < 20) && !hasAlphaRun3 cleanText)

theorem string_length_eq_zero {s : String} : s.length = 0 ↔ s = "" := by
  rw [String.ext_iff]
  cases s with
  | mk data =>
    show data.length = 0 ↔ data = []
    exact List.length_eq_zero

theorem children_singleton_iff (l : List String) :
    (l.length = 1 ∧ jsTrim (l.headD "") = "") ↔ ∃ t, l = [t] ∧ jsTrim t = "" := by
  cases l with
  | nil => simp
  | cons a l2 =>
    cases l2 with
    | nil => simp [List.headD]
    | cons b l3 => simp [List.length]

/-- The classifier contract as the specification words it: Blank iff any of
seven conditions holds, where normalization is collapse-whitespace-runs then
trim on the root element's text content and serialized inner markup. -/
def specBlankConditions (e : Element) : Prop :=
  jsTrim (collapseWs e.textContent) = "" ∨
  jsTrim (collapseWs e.innerHTML) = "" ∨
  jsTrim (collapseWs e.textContent) = " " ∨
  jsTrim (collapseWs e.innerHTML) = " " ∨
  e.childrenTexts.length = 0 ∨
  (∃ t, e.childrenTexts = [t] ∧ jsTrim t = "") ∨
  ((jsTrim (collapseWs e.textContent)).length < 20 ∧
    hasAlphaRun3 (jsTrim (collapseWs e.textContent)) = false)

/-- C4: on every parsed document (root element view `e`), the source's
`isBlankPage` answers Blank exactly when one of the specification's seven
disjunctive conditions holds; its two `length === 0` tests duplicate the
emptiness equalities, and its pre-trim of the raw text and markup is
absorbed by the collapse-then-trim normalization. -/
theorem isBlankPage_iff_spec_conditions (e : Element) :
    isBlankPage (some e) = true ↔ specBlankConditions e := by
  unfold isBlankPage specBlankConditions bodyTextOf bodyHTMLOf
  dsimp only
  rw [clean_of_trim, clean_of_trim]
  simp only [Bool.or_eq_true, beq_iff_eq, Bool.and_eq_true, Bool.not_eq_true',
    decide_eq_true_eq, string_length_eq_zero, ← children_singleton_iff]
  tauto

/-- Outcome of `GET <base>/source/<path>` followed by DOM parsing: `ok` is a
2xx response with its parsed document, `notOk` a response with `resp.ok`
false, `err` a thrown network error. -/
inductive FetchResult where
  | ok (doc : Doc)
  | notOk
  | err
deriving DecidableEq

/-- Result of one run of the per-file callback (the per-file unit of work of
the orchestrator): which early return it took, or the publish it performed. -/
inductive CbResult where
  | skippedNotHtml
  | fetchFailed
  | errored
  | skippedBlank
  | published (path : String) (payload : String)
deriving DecidableEq

/-- `const html = dom.body.outerHTML` — only evaluated on the non-blank
branch, where `body` is necessarily non-null (a null body yields empty
`cleanText`, hence a blank verdict and an early return). -/
def outerHTMLOf : Option Element → String
  | some b => b.outerHTML
  | none => ""

/-- `String.prototype.endsWith`: the pattern equals the final characters of
the string (false when the pattern is longer). -/
def jsEndsWith (s pat : String) : Bool :=
  decide (pat.data = s.data.drop (s.data.length - pat.data.length))

/-- The per-file callback of src/crawl.js lines 80–136: skip non-`.html`
paths, fetch the source, classify, and on a substantive verdict publish the
body's own serialized markup back to the same path. -/
def runCallback (fetchFn : String → FetchResult) (item : ListedChild) : CbResult :=
  if !(jsEndsWith item.path ".html") then .skippedNotHtml
  else
    match fetchFn item.path with
    | .err => .errored
    | .notOk => .fetchFailed
    | .ok doc =>
      if isBlankPage doc.body then .skippedBlank
      else .published item.path (outerHTMLOf doc.body)

/-- The `POST <base>/source/<path>` calls a callback run performs. -/
def publishCalls : CbResult → List (String × String)
  | .published p d => [(p, d)]
  | _ => []

/-! ### The frontier scheduler of `crawl`

The `crawl` function keeps three mutable collections — `files`, `folders`
(the frontier, used as a stack via `push`/`pop`), and `inProgress` (a list
of `true` markers whose length is the in-flight count) — plus the `results`
promise.  A `setInterval` callback fires repeatedly; each firing either
pops a folder and starts its expansion (suspending at the `fetch` await) or,
with an empty frontier, goes straight to the termination check.  JavaScript
runs each synchronous segment atomically, so the machine below has one step
per segment:

* `launch` — the segment from the top of the interval callback to the first
  await: `inProgress.push(true)`, `folders.pop()`, fire the `list` request;
* `complete` — the segment after the await: process the listing (or swallow
  the error), `inProgress.pop()`, then the termination check;
* `idle` — a firing that found the frontier empty: only the termination
  check runs;
* `cbFinish` — a fired file callback settles (fulfilled or rejected);
  `callback(child).catch(console.error)` discards the outcome either way.

`launched`, `cbStarted` and `cbOutcomes` are history variables: paths whose
expansion was started, children for which a callback was fired, and the
settlement outcomes of callbacks (`true` = fulfilled).  The `concurrent`
parameter is carried because `crawl` accepts it (default 50); exactly as in
the source, no rule reads it. -/

/-- Outcome of `GET <base>/list/<path>`: a parsed JSON listing, a response
with `resp.ok` false, or a thrown error. -/
inductive ListResult where
  | ok (children : List ListedChild)
  | notOk
  | err
deriving DecidableEq

structure CrawlState where
  files : List ListedChild
  folders : List String
  inflight : Nat
  pending : List String
  resolved : Option (List ListedChild)
  launched : List String
  cbStarted : List ListedChild
  cbOutcomes : List Bool
deriving DecidableEq

/-- `const files = []; const folders = [path]; const inProgress = [];` -/
def initState (root : String) : CrawlState :=
  { files := [], folders := [root], inflight := 0, pending := [],
    resolved := none, launched := [], cbStarted := [], cbOutcomes := [] }

/-- One iteration of the `json.forEach((child) => ...)` body: a file child is
appended to `files` and its callback fired; a folder child is pushed onto the
frontier. -/
def processChild (s : CrawlState) (c : ListedChild) : CrawlState :=
  if c.ext.isSome then
    { s with files := s.files ++ [c], cbStarted := s.cbStarted ++ [c] }
  else
    { s with folders := s.folders ++ [c.path] }

def processChildren (s : CrawlState) (cs : List ListedChild) : CrawlState :=
  cs.foldl processChild s

/-- The termination check
`if (inProgress.length === 0 && folders.length === 0) { clearInterval(..); resolve(files); }`;
resolving an already-settled promise is a no-op, hence the `resolved = none`
guard. -/
def checkDone (s : CrawlState) : CrawlState :=
  if s.resolved = none ∧ s.inflight = 0 ∧ s.folders = [] then
    { s with resolved := some s.files }
  else s

/-- Model bookkeeping for one outstanding `list` request finishing: remove
one occurrence of the path from the multiset of in-flight requests. -/
def removeFirst (p : String) : List String → List String
  | [] => []
  | q :: rest => if q = p then rest else q :: removeFirst p rest

/-- The resumption of an expansion of `p`: on a 2xx response process the
children; on a non-2xx response or a thrown error do nothing (the `catch`
only logs); then `inProgress.pop()` and the termination check. -/
def finishExpand (listFn : String → ListResult) (p : String) (s : CrawlState) :
    CrawlState :=
  let s1 :=
    match listFn p with
    | .ok cs => processChildren s cs
    | .notOk => s
    | .err => s
  checkDone { s1 with pending := removeFirst p s1.pending, inflight := s1.inflight - 1 }

inductive Step (concurrent : Nat) (listFn : String → ListResult) :
    CrawlState → CrawlState → Prop where
  | launch (s : CrawlState) (rest : List String) (p : String)
      (hres : s.resolved = none) (hfold : s.folders = rest ++ [p]) :
      Step concurrent listFn s
        { s with folders := rest, inflight := s.inflight + 1,
                 pending := p :: s.pending, launched := s.launched ++ [p] }
  | complete (s : CrawlState) (p : String) (hp : p ∈ s.pending) :
      Step concurrent listFn s (finishExpand listFn p s)
  | idle (s : CrawlState) (hres : s.resolved = none) (hfold : s.folders = []) :
      Step concurrent listFn s (checkDone s)
  | cbFinish (s : CrawlState) (b : Bool)
      (hlt : s.cbOutcomes.length < s.cbStarted.length) :
      Step concurrent listFn s { s with cbOutcomes := s.cbOutcomes ++ [b] }

/-- States a run of `crawl(root, ...)` can be in. -/
def Reachable (concurrent : Nat) (listFn : String → ListResult) (root : String)
    (s : CrawlState) : Prop :=
  Relation.ReflTransGen (Step concurrent listFn) (initState root) s

/-! ### Elementary facts about the scheduler -/

def fileChildren (cs : List ListedChild) : List ListedChild :=
  cs.filter (fun c => c.ext.isSome)

def folderChildPaths (cs : List ListedChild) : List String :=
  (cs.filter (fun c => c.ext.isNone)).map (fun c => c.path)

theorem processChildren_spec (cs : List ListedChild) (s : CrawlState) :
    processChildren s cs =
      { s with files := s.files ++ fileChildren cs,
               folders := s.folders ++ folderChildPaths cs,
               cbStarted := s.cbStarted ++ fileChildren cs } := by
  induction cs generalizing s with
  | nil => simp [processChildren, fileChildren, folderChildPaths]
  | cons c cs ih =>
    simp only [processChildren, List.foldl_cons] at ih ⊢
    rw [ih]
    cases hc : c.ext with
    | none =>
      simp [processChild, hc, fileChildren, folderChildPaths, List.filter_cons]
    | some e =>
      simp [processChild, hc, fileChildren, folderChildPaths, List.filter_cons]

theorem removeFirst_perm {p : String} : ∀ {l : List String}, p ∈ l →
    l.Perm (p :: removeFirst p l) := by
  intro l hl
  induction l with
  | nil => cases hl
  | cons q rest ih =>
    by_cases hq : q = p
    · subst hq; simp [removeFirst]
    · have hp : p ∈ rest := by
        cases hl with
        | head => exact absurd rfl hq
        | tail _ h => exact h
      have h1 : (q :: rest).Perm (q :: p :: removeFirst p rest) := (ih hp).cons q
      have h2 : (q :: p :: removeFirst p rest).Perm (p :: q :: removeFirst p rest) :=
        List.Perm.swap p q _
      have h3 : p :: q :: removeFirst p rest = p :: removeFirst p (q :: rest) := by
        simp [removeFirst, hq]
      exact h3 ▸ (h1.trans h2)

theorem removeFirst_length {p : String} : ∀ {l : List String}, p ∈ l →
    (removeFirst p l).length + 1 = l.length := by
  intro l hl
  have := (removeFirst_perm hl).length_eq
  simpa using this.symm

/-- The inductive invariant behind resolution: the in-flight counter tracks
the outstanding `list` requests, resolution happens only in the terminal
state and carries the accumulated file list, and a callback is fired for
exactly the files recorded. -/
structure BasicInv (s : CrawlState) : Prop where
  inflight_eq : s.inflight = s.pending.length
  resolved_spec : ∀ r, s.resolved = some r →
    s.folders = [] ∧ s.pending = [] ∧ s.inflight = 0 ∧ r = s.files
  cb_eq : s.cbStarted = s.files
  cb_le : s.cbOutcomes.length ≤ s.cbStarted.length

theorem basicInv_init (root : String) : BasicInv (initState root) := by
  refine ⟨rfl, ?_, rfl, Nat.le_refl 0⟩
  intro r hr
  simp [initState] at hr

theorem basicInv_checkDone {s : CrawlState} (hs : BasicInv s) :
    BasicInv (checkDone s) := by
  unfold checkDone
  split
  · next hcond =>
    obtain ⟨h1, h2, h3⟩ := hcond
    have hpend : s.pending = [] := by
      have := hs.inflight_eq
      rw [h2] at this
      exact List.length_eq_zero.mp this.symm
    exact ⟨hs.inflight_eq, by intro r hr; cases hr; exact ⟨h3, hpend, h2, rfl⟩,
      hs.cb_eq, hs.cb_le⟩
  · exact hs

theorem basicInv_finish {f : String → ListResult} {p : String} {s : CrawlState}
    (hs : BasicInv s) (hp : p ∈ s.pending) : BasicInv (finishExpand f p s) := by
  have hlen := removeFirst_length hp
  have hres : ∀ r, s.resolved = some r → False := by
    intro r hr
    have := (hs.resolved_spec r hr).2.1
    rw [this] at hp
    cases hp
  unfold finishExpand
  apply basicInv_checkDone
  cases hl : f p with
  | ok cs =>
    dsimp only
    rw [processChildren_spec]
    refine ⟨?_, ?_, ?_, ?_⟩
    · simp [hs.inflight_eq, ← hlen]
    · intro r hr; exact absurd hr (fun h => hres r h)
    · simp [hs.cb_eq]
    · simp only [List.length_append]
      exact Nat.le_trans hs.cb_le (Nat.le_add_right _ _)
  | notOk =>
    dsimp only
    refine ⟨?_, ?_, hs.cb_eq, hs.cb_le⟩
    · simp [hs.inflight_eq, ← hlen]
    · intro r hr; exact absurd hr (fun h => hres r h)
  | err =>
    dsimp only
    refine ⟨?_, ?_, hs.cb_eq, hs.cb_le⟩
    · simp [hs.inflight_eq, ← hlen]
    · intro r hr; exact absurd hr (fun h => hres r h)

theorem basicInv_step {c : Nat} {f : String → ListResult} {s s2 : CrawlState}
    (hs : BasicInv s) (hstep : Step c f s s2) : BasicInv s2 := by
  cases hstep with
  | launch rest p hres hfold =>
    refine ⟨?_, ?_, hs.cb_eq, hs.cb_le⟩
    · simp [hs.inflight_eq]
    · intro r hr
      dsimp only at hr
      rw [hres] at hr
      cases hr
  | complete p hp => exact basicInv_finish hs hp
  | idle hres hfold => exact basicInv_checkDone hs
  | cbFinish b hlt =>
    refine ⟨hs.inflight_eq, hs.resolved_spec, hs.cb_eq, ?_⟩
    simp only [List.length_append, List.length_cons, List.length_nil]
    omega

theorem reach_basicInv {c : Nat} {f : String → ListResult} {root : String}
    {s : CrawlState} (h : Reachable c f root s) : BasicInv s := by
  induction h with
  | refl => exact basicInv_init root
  | tail hsteps hstep ih => exact basicInv_step ih hstep

/-- Cast the target state of a step along a computed equality. -/
theorem step_cast {c : Nat} {f : String → ListResult} {a b b2 : CrawlState}
    (h : Step c f a b) (e : b = b2) : Step c f a b2 := e ▸ h

theorem step_concurrent_mono {c c2 : Nat} {f : String → ListResult}
    {a b : CrawlState} (h : Step c f a b) : Step c2 f a b := by
  cases h with
  | launch rest p h1 h2 => exact Step.launch _ rest p h1 h2
  | complete p hp => exact Step.complete _ p hp
  | idle h1 h2 => exact Step.idle _ h1 h2
  | cbFinish b hlt => exact Step.cbFinish _ b hlt

/-! ### Claim C2: resolution happens exactly in the terminal state -/

/-- C2: in every reachable state of a `crawl` run, if the call has resolved
then the frontier is empty, no expansion is in flight, and the resolved
value is the accumulated file list; conversely, whenever the frontier is
empty and the in-flight count is zero in an unresolved state, the very next
termination check resolves the call with the accumulated files. -/
theorem crawl_resolves_iff_frontier_empty_and_idle
    (c : Nat) (f : String → ListResult) (root : String) (s : CrawlState)
    (h : Reachable c f root s) :
    (∀ r, s.resolved = some r →
      s.folders = [] ∧ s.pending = [] ∧ s.inflight = 0 ∧ r = s.files) ∧
    (s.resolved = none → s.folders = [] → s.inflight = 0 →
      Step c f s { s with resolved := some s.files }) := by
  have hb := reach_basicInv h
  refine ⟨hb.resolved_spec, ?_⟩
  intro h1 h2 h3
  have hstep : Step c f s (checkDone s) := Step.idle s h1 h2
  rwa [checkDone, if_pos ⟨h1, h3, h2⟩] at hstep

/-- A remote listing under which every folder is empty. -/
def listFnEmpty : String → ListResult := fun _ => .ok []

def c2Mid : CrawlState :=
  { files := [], folders := [], inflight := 1, pending := ["/r"],
    resolved := none, launched := ["/r"], cbStarted := [], cbOutcomes := [] }

def c2End : CrawlState :=
  { files := [], folders := [], inflight := 0, pending := [],
    resolved := some [], launched := ["/r"], cbStarted := [], cbOutcomes := [] }

theorem c2End_reachable : Reachable 50 listFnEmpty "/r" c2End := by
  have h1 : Step 50 listFnEmpty (initState "/r") c2Mid :=
    step_cast (Step.launch (initState "/r") [] "/r" rfl rfl) (by decide)
  have h2 : Step 50 listFnEmpty c2Mid c2End :=
    step_cast (Step.complete c2Mid "/r" (by decide)) (by decide)
  exact (Relation.ReflTransGen.single h1).tail h2

theorem crawl_resolves_iff_frontier_empty_and_idle_witness :
    c2End.folders = [] ∧ c2End.pending = [] ∧ c2End.inflight = 0 ∧
      ([] : List ListedChild) = c2End.files :=
  (crawl_resolves_iff_frontier_empty_and_idle 50 listFnEmpty "/r" c2End
    c2End_reachable).1 [] (by decide)

/-! ### Claim C1: the concurrency cap

The source destructures `concurrent = 50` in `crawl` and then never reads
it: the interval callback launches an expansion whenever the frontier is
non-empty, with no test of `inProgress.length` against `concurrent`.  With
`concurrent = 1` and a root listing two subfolders whose `list` responses
are slower than the 100 ms tick, both subfolders are in flight at once. -/

/-- A remote tree whose root lists two (empty) subfolders. -/
def listFnTwo : String → ListResult := fun p =>
  if p = "/r" then
    .ok [{ path := "/r/a", ext := none }, { path := "/r/b", ext := none }]
  else .ok []

def c1S1 : CrawlState :=
  { files := [], folders := [], inflight := 1, pending := ["/r"],
    resolved := none, launched := ["/r"], cbStarted := [], cbOutcomes := [] }

def c1S2 : CrawlState :=
  { files := [], folders := ["/r/a", "/r/b"], inflight := 0, pending := [],
    resolved := none, launched := ["/r"], cbStarted := [], cbOutcomes := [] }

def c1S3 : CrawlState :=
  { files := [], folders := ["/r/a"], inflight := 1, pending := ["/r/b"],
    resolved := none, launched := ["/r", "/r/b"], cbStarted := [], cbOutcomes := [] }

def c1S4 : CrawlState :=
  { files := [], folders := [], inflight := 2, pending := ["/r/a", "/r/b"],
    resolved := none, launched := ["/r", "/r/b", "/r/a"], cbStarted := [],
    cbOutcomes := [] }

/-- C1 fails on the code: running `crawl` with `concurrencyLimit = 1` over a
root that lists two folders reaches a state with two expansions in flight,
because the step relation — like the source, whose `concurrent` parameter is
dead — launches whenever the frontier is non-empty and never compares the
in-flight count with the limit (second conjunct: the limit is irrelevant to
the transition relation). -/
theorem crawl_concurrency_cap_violated :
    (∃ s : CrawlState, Reachable 1 listFnTwo "/r" s ∧ 1 < s.inflight) ∧
    (∀ (c c2 : Nat) (f : String → ListResult) (a b : CrawlState),
      Step c f a b ↔ Step c2 f a b) := by
  constructor
  · refine ⟨c1S4, ?_, by decide⟩
    have h1 : Step 1 listFnTwo (initState "/r") c1S1 :=
      step_cast (Step.launch (initState "/r") [] "/r" rfl rfl) (by decide)
    have h2 : Step 1 listFnTwo c1S1 c1S2 :=
      step_cast (Step.complete c1S1 "/r" (by decide)) (by decide)
    have h3 : Step 1 listFnTwo c1S2 c1S3 :=
      step_cast (Step.launch c1S2 ["/r/a"] "/r/b" rfl (by decide)) (by decide)
    have h4 : Step 1 listFnTwo c1S3 c1S4 :=
      step_cast (Step.launch c1S3 [] "/r/a" rfl (by decide)) (by decide)
    exact (((Relation.ReflTransGen.single h1).tail h2).tail h3).tail h4
  · intro c c2 f a b
    exact ⟨step_concurrent_mono, step_concurrent_mono⟩

/-! ### Claim C6: resolution does not wait for file callbacks -/

/-- A remote tree whose root lists a single file. -/
def listFnOneFile : String → ListResult := fun p =>
  if p = "/r" then .ok [{ path := "/r/f.html", ext := some "html" }] else .ok []

def c6Mid : CrawlState :=
  { files := [], folders := [], inflight := 1, pending := ["/r"],
    resolved := none, launched := ["/r"], cbStarted := [], cbOutcomes := [] }

def c6End : CrawlState :=
  { files := [{ path := "/r/f.html", ext := some "html" }], folders := [],
    inflight := 0, pending := [],
    resolved := some [{ path := "/r/f.html", ext := some "html" }],
    launched := ["/r"],
    cbStarted := [{ path := "/r/f.html", ext := some "html" }],
    cbOutcomes := [] }

/-- C6: there is an execution in which the crawl has resolved with its
result while a fired `onFile` callback has not yet settled — the scheduler
counts only folder expansions, never callbacks, toward completion. -/
theorem crawl_can_resolve_with_callbacks_running :
    ∃ s : CrawlState, Reachable 50 listFnOneFile "/r" s ∧
      s.resolved.isSome = true ∧ s.cbOutcomes.length < s.cbStarted.length := by
  refine ⟨c6End, ?_, by decide, by decide⟩
  have h1 : Step 50 listFnOneFile (initState "/r") c6Mid :=
    step_cast (Step.launch (initState "/r") [] "/r" rfl rfl) (by decide)
  have h2 : Step 50 listFnOneFile c6Mid c6End :=
    step_cast (Step.complete c6Mid "/r" (by decide)) (by decide)
  exact (Relation.ReflTransGen.single h1).tail h2

/-! ### Claim C5: publish exactly once per substantive file, zero per blank -/

/-- C5: a per-file callback run on a fetched document publishes exactly once
when the verdict is substantive — with payload the body element's own
serialized markup (`outerHTML`), posted to the very path the file was
fetched from — and publishes nothing when the verdict is blank. -/
theorem callback_publishes_iff_substantive
    (fetchFn : String → FetchResult) (item : ListedChild) (doc : Doc)
    (hhtml : jsEndsWith item.path ".html" = true)
    (hfetch : fetchFn item.path = .ok doc) :
    (∀ e, doc.body = some e → isBlankPage doc.body = false →
      publishCalls (runCallback fetchFn item) = [(item.path, e.outerHTML)]) ∧
    (isBlankPage doc.body = true →
      publishCalls (runCallback fetchFn item) = []) := by
  constructor
  · intro e he hblank
    rw [he] at hblank
    unfold runCallback
    simp [hhtml, hfetch, he, hblank, publishCalls, outerHTMLOf]
  · intro hblank
    unfold runCallback
    simp [hhtml, hfetch, hblank, publishCalls]

def c5Elem : Element :=
  { textContent := "Hello world", innerHTML := "<p>Hello world</p>",
    outerHTML := "<body><p>Hello world</p></body>",
    childrenTexts := ["Hello world"] }

def c5Fetch : String → FetchResult := fun _ => .ok { body := some c5Elem }

def c5Item : ListedChild := { path := "/x/y.html", ext := some "html" }

theorem callback_publishes_iff_substantive_witness :
    publishCalls (runCallback c5Fetch c5Item) =
      [("/x/y.html", "<body><p>Hello world</p></body>")] :=
  (callback_publishes_iff_substantive c5Fetch c5Item
    { body := some c5Elem } (by decide) rfl).1 c5Elem rfl (by decide)

/-! ### Claim C10: documents without a body element -/

/-- C10: when the parsed document has no body element, the callback treats
text content and inner markup as empty strings, classifies the page as
blank, skips it, and performs no publish — the classification is total over
bodyless documents. -/
theorem missing_body_classified_blank
    (fetchFn : String → FetchResult) (item : ListedChild)
    (hhtml : jsEndsWith item.path ".html" = true)
    (hfetch : fetchFn item.path = .ok { body := none }) :
    bodyTextOf none = "" ∧ bodyHTMLOf none = "" ∧ isBlankPage none = true ∧
    runCallback fetchFn item = .skippedBlank ∧
    publishCalls (runCallback fetchFn item) = [] := by
  have hb : isBlankPage none = true := by decide
  refine ⟨rfl, rfl, hb, ?_, ?_⟩
  · unfold runCallback
    simp [hhtml, hfetch, hb]
  · unfold runCallback
    simp [hhtml, hfetch, hb, publishCalls]

def c10Fetch : String → FetchResult := fun _ => .ok { body := none }

theorem missing_body_classified_blank_witness :
    bodyTextOf none = "" ∧ bodyHTMLOf none = "" ∧ isBlankPage none = true ∧
    runCallback c10Fetch c5Item = .skippedBlank ∧
    publishCalls (runCallback c10Fetch c5Item) = [] :=
  missing_body_classified_blank c10Fetch c5Item (by decide) rfl

/-! ### Remote trees

The remaining claims quantify over remote trees: a hierarchy served by the
`list` endpoint in which every node has a unique path.  `REntry` is such a
tree; `treeListFn` is the `list` responder it induces (looking the queried
path up among the folder nodes), so that the crawl of a tree is the step
relation instantiated with `treeListFn`. -/

inductive REntry : Type where
  | fileE (path ext : String)
  | dirE (path : String) (children : List REntry)

/-- The JSON entry by which a node appears in its parent's listing. -/
def REntry.toChild : REntry → ListedChild
  | .fileE p e => { path := p, ext := some e }
  | .dirE p _ => { path := p, ext := none }

/-- The listing a folder node serves. -/
def REntry.childrenL : REntry → List ListedChild
  | .fileE _ _ => []
  | .dirE _ cs => cs.map REntry.toChild

mutual
/-- All file entries in the subtree (mutually with the same over a list of
sibling subtrees, keeping the definitions structurally recursive and hence
computable by the kernel). -/
def REntry.allFiles : REntry → List ListedChild
  | .fileE p e => [{ path := p, ext := some e }]
  | .dirE _ cs => allFilesList cs
def allFilesList : List REntry → List ListedChild
  | [] => []
  | e :: es => REntry.allFiles e ++ allFilesList es
end

mutual
/-- All node paths (files and folders) in the subtree. -/
def REntry.allPaths : REntry → List String
  | .fileE p _ => [p]
  | .dirE p cs => p :: allPathsList cs
def allPathsList : List REntry → List String
  | [] => []
  | e :: es => REntry.allPaths e ++ allPathsList es
end

mutual
/-- Every folder node of the subtree, keyed by its path. -/
def REntry.dirNodes : REntry → List (String × REntry)
  | .fileE _ _ => []
  | .dirE p cs => (p, .dirE p cs) :: dirNodesList cs
def dirNodesList : List REntry → List (String × REntry)
  | [] => []
  | e :: es => REntry.dirNodes e ++ dirNodesList es
end

theorem allFilesList_eq (cs : List REntry) :
    allFilesList cs = (cs.map REntry.allFiles).flatten := by
  induction cs with
  | nil => rfl
  | cons e es ih => rw [allFilesList, ih, List.map_cons, List.flatten_cons]

theorem allPathsList_eq (cs : List REntry) :
    allPathsList cs = (cs.map REntry.allPaths).flatten := by
  induction cs with
  | nil => rfl
  | cons e es ih => rw [allPathsList, ih, List.map_cons, List.flatten_cons]

theorem dirNodesList_eq (cs : List REntry) :
    dirNodesList cs = (cs.map REntry.dirNodes).flatten := by
  induction cs with
  | nil => rfl
  | cons e es ih => rw [dirNodesList, ih, List.map_cons, List.flatten_cons]

theorem REntry.allFiles_fileE (p e : String) :
    REntry.allFiles (.fileE p e) = [{ path := p, ext := some e }] := rfl

theorem REntry.allPaths_fileE (p e : String) :
    REntry.allPaths (.fileE p e) = [p] := rfl

theorem REntry.dirNodes_fileE (p e : String) :
    REntry.dirNodes (.fileE p e) = [] := rfl

theorem REntry.allFiles_dirE (p : String) (cs : List REntry) :
    REntry.allFiles (.dirE p cs) = (cs.map REntry.allFiles).flatten := by
  rw [REntry.allFiles, allFilesList_eq]

theorem REntry.allPaths_dirE (p : String) (cs : List REntry) :
    REntry.allPaths (.dirE p cs) = p :: (cs.map REntry.allPaths).flatten := by
  rw [REntry.allPaths, allPathsList_eq]

theorem REntry.dirNodes_dirE (p : String) (cs : List REntry) :
    REntry.dirNodes (.dirE p cs) =
      (p, .dirE p cs) :: (cs.map REntry.dirNodes).flatten := by
  rw [REntry.dirNodes, dirNodesList_eq]

theorem REntry.myInduction (motive : REntry → Prop)
    (hfile : ∀ p e, motive (.fileE p e))
    (hdir : ∀ p cs, (∀ e ∈ cs, motive e) → motive (.dirE p cs)) :
    ∀ t, motive t
  | .fileE p e => hfile p e
  | .dirE p cs => hdir p cs (fun e he => REntry.myInduction motive hfile hdir e)
termination_by t => sizeOf t
decreasing_by
  have := List.sizeOf_lt_of_mem he
  simp only [REntry.dirE.sizeOf_spec]
  omega

/-- The folder paths of the tree (the keys of `dirNodes`). -/
def keysOf (t : REntry) : List String := t.dirNodes.map Prod.fst

/-- The folder paths strictly inside a folder node. -/
def REntry.strictSubKeys : REntry → List String
  | .fileE _ _ => []
  | .dirE _ cs => (cs.map keysOf).flatten

/-- Association-list lookup used to serve `list` requests from a tree. -/
def lookupS {α : Type} (k : String) : List (String × α) → Option α
  | [] => none
  | (k2, v) :: rest => if k = k2 then some v else lookupS k rest

/-- The `list` responder a tree induces: folder paths answer with their
listing, anything else is a 404 (`notOk`). -/
def treeListFn (t : REntry) : String → ListResult := fun p =>
  match lookupS p t.dirNodes with
  | some n => .ok n.childrenL
  | none => .notOk

/-- Well-formedness of a remote tree: pathwise unique nodes. -/
def WFTree (t : REntry) : Prop := t.allPaths.Nodup

theorem lookupS_mem {α : Type} {k : String} {v : α} :
    ∀ {l : List (String × α)}, lookupS k l = some v → (k, v) ∈ l := by
  intro l
  induction l with
  | nil => intro h; cases h
  | cons kv rest ih =>
    intro h
    match kv with
    | (k2, v2) =>
      by_cases hk : k = k2
      · subst hk
        rw [lookupS, if_pos rfl] at h
        cases h
        exact List.mem_cons_self _ _
      · rw [lookupS, if_neg hk] at h
        exact List.mem_cons_of_mem _ (ih h)

theorem lookupS_eq_of_mem {α : Type} {k : String} {v : α} :
    ∀ {l : List (String × α)}, (l.map Prod.fst).Nodup → (k, v) ∈ l →
      lookupS k l = some v := by
  intro l
  induction l with
  | nil => intro _ h; cases h
  | cons kv rest ih =>
    intro hnd h
    match kv with
    | (k2, v2) =>
      simp only [List.map_cons, List.nodup_cons] at hnd
      cases h with
      | head => exact if_pos rfl
      | tail _ h2 =>
        have hk : ¬k = k2 := by
          intro he
          subst he
          exact hnd.1 (List.mem_map_of_mem Prod.fst h2)
        rw [lookupS, if_neg hk]
        exact ih hnd.2 h2

theorem flatten_sublist_flatten {α β : Type} (f g : β → List α) :
    ∀ (cs : List β), (∀ e ∈ cs, (f e).Sublist (g e)) →
      ((cs.map f).flatten).Sublist ((cs.map g).flatten) := by
  intro cs
  induction cs with
  | nil => intro _; exact List.Sublist.refl []
  | cons e cs ih =>
    intro h
    simp only [List.map_cons, List.flatten_cons]
    exact List.Sublist.append (h e (List.mem_cons_self e cs))
      (ih (fun x hx => h x (List.mem_cons_of_mem e hx)))

theorem dirNodes_shape : ∀ (t : REntry), ∀ x ∈ t.dirNodes,
    ∃ cs, x.2 = REntry.dirE x.1 cs := by
  intro t
  induction t using REntry.myInduction with
  | hfile p e => intro x hx; rw [REntry.dirNodes_fileE] at hx; cases hx
  | hdir p cs ih =>
    intro x hx
    rw [REntry.dirNodes_dirE] at hx
    cases hx with
    | head => exact ⟨cs, rfl⟩
    | tail _ h2 =>
      obtain ⟨l, hl, hxl⟩ := List.mem_flatten.mp h2
      obtain ⟨e, he, rfl⟩ := List.mem_map.mp hl
      exact ih e he x hxl

theorem dirNodes_trans : ∀ (t : REntry) {q : String} {n : REntry}
    {x : String × REntry}, (q, n) ∈ t.dirNodes → x ∈ n.dirNodes →
    x ∈ t.dirNodes := by
  intro t
  induction t using REntry.myInduction with
  | hfile p e => intro q n x h _; rw [REntry.dirNodes_fileE] at h; cases h
  | hdir p cs ih =>
    intro q n x hqn hx
    rw [REntry.dirNodes_dirE] at hqn ⊢
    cases hqn with
    | head =>
      rw [REntry.dirNodes_dirE] at hx
      exact hx
    | tail _ h2 =>
      obtain ⟨l, hl, hql⟩ := List.mem_flatten.mp h2
      obtain ⟨e, he, rfl⟩ := List.mem_map.mp hl
      refine List.mem_cons_of_mem _ ?_
      rw [List.mem_flatten]
      exact ⟨e.dirNodes, List.mem_map_of_mem _ he, ih e he hql hx⟩

theorem keys_sublist (t : REntry) : (keysOf t).Sublist t.allPaths := by
  induction t using REntry.myInduction with
  | hfile p e =>
    rw [keysOf, REntry.dirNodes_fileE, REntry.allPaths_fileE]
    exact List.nil_sublist _
  | hdir p cs ih =>
    rw [keysOf, REntry.dirNodes_dirE, REntry.allPaths_dirE]
    simp only [List.map_cons]
    refine List.Sublist.cons₂ p ?_
    rw [List.map_flatten, List.map_map]
    exact flatten_sublist_flatten _ _ cs (fun e he => ih e he)

theorem filePaths_sublist (t : REntry) :
    (t.allFiles.map (fun c => c.path)).Sublist t.allPaths := by
  induction t using REntry.myInduction with
  | hfile p e =>
    rw [REntry.allFiles_fileE, REntry.allPaths_fileE]
    exact List.Sublist.refl _
  | hdir p cs ih =>
    rw [REntry.allFiles_dirE, REntry.allPaths_dirE]
    refine List.Sublist.trans ?_ (List.sublist_cons_self p _)
    rw [List.map_flatten, List.map_map]
    exact flatten_sublist_flatten _ _ cs (fun e he => ih e he)

theorem keys_nodup {t : REntry} (hw : WFTree t) : (keysOf t).Nodup :=
  (keys_sublist t).nodup hw

theorem filePaths_nodup {t : REntry} (hw : WFTree t) :
    (t.allFiles.map (fun c => c.path)).Nodup :=
  (filePaths_sublist t).nodup hw

/-- The files below folder path `p` of the tree, as a multiset (zero when
`p` is not a folder of the tree). -/
def subFilesM (t : REntry) (p : String) : Multiset ListedChild :=
  match lookupS p t.dirNodes with
  | some n => (n.allFiles : Multiset ListedChild)
  | none => 0

/-- The folder paths strictly below folder path `p` of the tree. -/
def strictSubM (t : REntry) (p : String) : Multiset String :=
  match lookupS p t.dirNodes with
  | some n => (n.strictSubKeys : Multiset String)
  | none => 0

theorem subFilesM_eq {t : REntry} {p : String} {n : REntry}
    (h : lookupS p t.dirNodes = some n) :
    subFilesM t p = (n.allFiles : Multiset ListedChild) := by
  unfold subFilesM
  rw [h]

theorem strictSubM_eq {t : REntry} {p : String} {n : REntry}
    (h : lookupS p t.dirNodes = some n) :
    strictSubM t p = (n.strictSubKeys : Multiset String) := by
  unfold strictSubM
  rw [h]

theorem keysOf_dirE (p : String) (cs : List REntry) :
    keysOf (.dirE p cs) = p :: REntry.strictSubKeys (.dirE p cs) := by
  rw [keysOf, REntry.dirNodes_dirE, REntry.strictSubKeys]
  simp only [List.map_cons, List.map_flatten, List.map_map]
  rfl

/-- Every folder child listed by a looked-up folder node is itself a folder
node of the tree, found by lookup at its own path. -/
theorem child_dir_lookup {t : REntry} (hw : WFTree t) {p : String}
    {cs : List REntry} (hlook : lookupS p t.dirNodes = some (.dirE p cs)) :
    ∀ e ∈ cs, ∀ q qcs, e = REntry.dirE q qcs → lookupS q t.dirNodes = some e := by
  intro e he q qcs heq
  subst heq
  have hmem : (p, REntry.dirE p cs) ∈ t.dirNodes := lookupS_mem hlook
  have h1 : (q, REntry.dirE q qcs) ∈ (REntry.dirE q qcs).dirNodes := by
    rw [REntry.dirNodes_dirE]
    exact List.mem_cons_self _ _
  have h2 : (q, REntry.dirE q qcs) ∈ (REntry.dirE p cs).dirNodes := by
    rw [REntry.dirNodes_dirE]
    refine List.mem_cons_of_mem _ ?_
    rw [List.mem_flatten]
    exact ⟨_, List.mem_map_of_mem REntry.dirNodes he, h1⟩
  exact lookupS_eq_of_mem (keys_nodup hw) (dirNodes_trans t hmem h2)

theorem fileChildren_cons_file (c : ListedChild) (l : List ListedChild)
    (h : c.ext.isSome = true) : fileChildren (c :: l) = c :: fileChildren l := by
  simp [fileChildren, List.filter_cons, h]

theorem fileChildren_cons_dir (c : ListedChild) (l : List ListedChild)
    (h : c.ext.isSome = false) : fileChildren (c :: l) = fileChildren l := by
  simp [fileChildren, List.filter_cons, h]

theorem folderChildPaths_cons_file (c : ListedChild) (l : List ListedChild)
    (h : c.ext.isNone = false) : folderChildPaths (c :: l) = folderChildPaths l := by
  simp [folderChildPaths, List.filter_cons, h]

theorem folderChildPaths_cons_dir (c : ListedChild) (l : List ListedChild)
    (h : c.ext.isNone = true) :
    folderChildPaths (c :: l) = c.path :: folderChildPaths l := by
  simp [folderChildPaths, List.filter_cons, h]

theorem keysOf_fileE (p e : String) : keysOf (.fileE p e) = [] := by
  rw [keysOf, REntry.dirNodes_fileE]
  rfl

/-- Decomposition of the files below a folder into its directly listed files
plus the files below its listed subfolders. -/
theorem files_decomp (t : REntry) :
    ∀ (cs : List REntry),
      (∀ e ∈ cs, ∀ q qcs, e = REntry.dirE q qcs → lookupS q t.dirNodes = some e) →
      (((cs.map REntry.allFiles).flatten : List ListedChild) : Multiset ListedChild) =
        ↑(fileChildren (cs.map REntry.toChild)) +
          ((folderChildPaths (cs.map REntry.toChild)).map (subFilesM t)).sum := by
  intro cs
  induction cs with
  | nil => simp [fileChildren, folderChildPaths]
  | cons e cs ih =>
    intro H
    have Hrest : ∀ e2 ∈ cs, ∀ q qcs, e2 = REntry.dirE q qcs →
        lookupS q t.dirNodes = some e2 :=
      fun e2 h2 => H e2 (List.mem_cons_of_mem e h2)
    cases e with
    | fileE q ex =>
      simp only [List.map_cons, List.flatten_cons, REntry.allFiles_fileE,
        REntry.toChild]
      rw [← Multiset.coe_add, ih Hrest,
        fileChildren_cons_file { path := q, ext := some ex } _ rfl,
        folderChildPaths_cons_file { path := q, ext := some ex } _ rfl]
      simp only [← Multiset.cons_coe, Multiset.cons_add, Multiset.add_cons,
        Multiset.coe_nil, zero_add]
    | dirE q qcs =>
      have hlook : lookupS q t.dirNodes = some (.dirE q qcs) :=
        H (.dirE q qcs) (List.mem_cons_self _ _) q qcs rfl
      simp only [List.map_cons, List.flatten_cons, REntry.toChild]
      rw [← Multiset.coe_add, ih Hrest,
        fileChildren_cons_dir { path := q, ext := none } _ rfl,
        folderChildPaths_cons_dir { path := q, ext := none } _ rfl]
      simp only [List.map_cons, List.sum_cons, subFilesM_eq hlook]
      abel

/-- Decomposition of the folders strictly below a folder into its directly
listed subfolders plus the folders strictly below them. -/
theorem dirs_decomp (t : REntry) :
    ∀ (cs : List REntry),
      (∀ e ∈ cs, ∀ q qcs, e = REntry.dirE q qcs → lookupS q t.dirNodes = some e) →
      (((cs.map keysOf).flatten : List String) : Multiset String) =
        ↑(folderChildPaths (cs.map REntry.toChild)) +
          ((folderChildPaths (cs.map REntry.toChild)).map (strictSubM t)).sum := by
  intro cs
  induction cs with
  | nil => simp [folderChildPaths]
  | cons e cs ih =>
    intro H
    have Hrest : ∀ e2 ∈ cs, ∀ q qcs, e2 = REntry.dirE q qcs →
        lookupS q t.dirNodes = some e2 :=
      fun e2 h2 => H e2 (List.mem_cons_of_mem e h2)
    cases e with
    | fileE q ex =>
      simp only [List.map_cons, List.flatten_cons, REntry.toChild,
        keysOf_fileE, List.nil_append]
      rw [ih Hrest, folderChildPaths_cons_file { path := q, ext := some ex } _ rfl]
    | dirE q qcs =>
      have hlook : lookupS q t.dirNodes = some (.dirE q qcs) :=
        H (.dirE q qcs) (List.mem_cons_self _ _) q qcs rfl
      simp only [List.map_cons, List.flatten_cons, REntry.toChild, keysOf_dirE,
        List.cons_append]
      rw [folderChildPaths_cons_dir { path := q, ext := none } _ rfl]
      simp only [List.map_cons, List.sum_cons, strictSubM_eq hlook,
        ← Multiset.cons_coe, Multiset.cons_add, Multiset.add_cons]
      congr 1
      rw [← Multiset.coe_add, ih Hrest]
      abel

theorem REntry.childrenL_dirE (p : String) (cs : List REntry) :
    REntry.childrenL (.dirE p cs) = cs.map REntry.toChild := rfl

theorem removeFirst_mem {p q : String} : ∀ {l : List String},
    q ∈ removeFirst p l → q ∈ l := by
  intro l
  induction l with
  | nil => intro h; cases h
  | cons a rest ih =>
    intro h
    rw [removeFirst] at h
    by_cases ha : a = p
    · rw [if_pos ha] at h
      exact List.mem_cons_of_mem a h
    · rw [if_neg ha] at h
      rcases List.mem_cons.mp h with h1 | h2
      · subst h1
        exact List.mem_cons_self _ _
      · exact List.mem_cons_of_mem a (ih h2)

theorem folderChildPaths_mem {cs : List REntry} {q : String}
    (h : q ∈ folderChildPaths (cs.map REntry.toChild)) :
    ∃ qcs, REntry.dirE q qcs ∈ cs := by
  rw [folderChildPaths] at h
  obtain ⟨ch, hch, hpath⟩ := List.mem_map.mp h
  obtain ⟨hch2, hnone⟩ := List.mem_filter.mp hch
  obtain ⟨e, he, hte⟩ := List.mem_map.mp hch2
  cases e with
  | fileE p2 e2 =>
    rw [REntry.toChild] at hte
    rw [← hte] at hnone
    cases hnone
  | dirE q2 qcs =>
    rw [REntry.toChild] at hte
    rw [← hte] at hpath
    refine ⟨qcs, ?_⟩
    have : q2 = q := hpath
    rw [← this]
    exact he

/-- The traversal invariant over a remote tree: every frontier or pending
path is a folder of the tree; the tree's files split into the collected
files plus those below the outstanding folders; and the tree's folder keys
split into the already launched expansions, the frontier, and the folders
strictly below outstanding ones. -/
structure TreeInv (t : REntry) (s : CrawlState) : Prop where
  valid : ∀ p ∈ s.folders ++ s.pending, ∃ n, lookupS p t.dirNodes = some n
  files_eq : (t.allFiles : Multiset ListedChild) =
    ↑s.files + ((s.folders ++ s.pending).map (subFilesM t)).sum
  dirs_eq : (keysOf t : Multiset String) =
    ↑s.launched + ↑s.folders + ((s.folders ++ s.pending).map (strictSubM t)).sum

theorem treeInv_checkDone {t : REntry} {s : CrawlState} (h : TreeInv t s) :
    TreeInv t (checkDone s) := by
  unfold checkDone
  split
  · exact ⟨h.valid, h.files_eq, h.dirs_eq⟩
  · exact h

theorem treeInv_init (root : String) (rcs : List REntry) :
    TreeInv (.dirE root rcs) (initState root) := by
  have hlook : lookupS root (REntry.dirE root rcs).dirNodes =
      some (.dirE root rcs) := by
    rw [REntry.dirNodes_dirE, lookupS, if_pos rfl]
  refine ⟨?_, ?_, ?_⟩
  · intro p hp
    simp only [initState, List.append_nil, List.mem_singleton] at hp
    subst hp
    exact ⟨_, hlook⟩
  · simp only [initState, List.append_nil, List.map_cons, List.map_nil,
      List.sum_cons, List.sum_nil, subFilesM_eq hlook]
    simp
  · rw [keysOf_dirE]
    simp only [initState, List.append_nil, List.map_cons, List.map_nil,
      List.sum_cons, List.sum_nil, strictSubM_eq hlook]
    simp [← Multiset.cons_coe, Multiset.cons_add, Multiset.add_cons]

theorem treeInv_step {t : REntry} {c : Nat} {s s2 : CrawlState}
    (hw : WFTree t) (hinv : TreeInv t s)
    (hstep : Step c (treeListFn t) s s2) : TreeInv t s2 := by
  cases hstep with
  | launch rest p hres hfold =>
    refine ⟨?_, ?_, ?_⟩
    · intro q hq
      apply hinv.valid
      rw [hfold, List.append_assoc]
      simpa using hq
    · have h2 := hinv.files_eq
      rw [hfold] at h2
      simpa [List.append_assoc] using h2
    · have h2 := hinv.dirs_eq
      rw [hfold] at h2
      rw [h2]
      simp only [List.append_assoc, List.cons_append, List.nil_append,
        ← Multiset.coe_add, List.map_append, List.sum_append, List.map_cons,
        List.sum_cons, List.map_nil, List.sum_nil]
      abel
  | complete p hp =>
    have hpout : p ∈ s.folders ++ s.pending := List.mem_append_right _ hp
    obtain ⟨n, hlook⟩ := hinv.valid p hpout
    obtain ⟨cs2, hshape⟩ := dirNodes_shape t (p, n) (lookupS_mem hlook)
    simp only at hshape
    subst hshape
    have hfn : treeListFn t p = .ok (cs2.map REntry.toChild) := by
      unfold treeListFn
      rw [hlook]
      rfl
    have hchild : ∀ e ∈ cs2, ∀ q qcs, e = REntry.dirE q qcs →
        lookupS q t.dirNodes = some e := child_dir_lookup hw hlook
    have hperm : s.pending.Perm (p :: removeFirst p s.pending) :=
      removeFirst_perm hp
    apply treeInv_checkDone
    rw [hfn]
    dsimp only
    rw [processChildren_spec]
    refine ⟨?_, ?_, ?_⟩
    · intro q hq
      dsimp only at hq
      rw [List.append_assoc, List.mem_append, List.mem_append] at hq
      rcases hq with hq | hq | hq
      · exact hinv.valid q (List.mem_append_left _ hq)
      · obtain ⟨qcs, hqcs⟩ := folderChildPaths_mem hq
        exact ⟨_, hchild _ hqcs q qcs rfl⟩
      · exact hinv.valid q (List.mem_append_right _ (removeFirst_mem hq))
    · dsimp only
      have hsubp : subFilesM t p =
          ↑(fileChildren (cs2.map REntry.toChild)) +
            ((folderChildPaths (cs2.map REntry.toChild)).map (subFilesM t)).sum := by
        rw [subFilesM_eq hlook, REntry.allFiles_dirE]
        exact files_decomp t cs2 hchild
      rw [hinv.files_eq, List.map_append, List.sum_append,
        List.Perm.sum_eq (hperm.map (subFilesM t))]
      simp only [List.map_cons, List.sum_cons, hsubp]
      simp only [← Multiset.coe_add, List.map_append, List.sum_append]
      abel
    · dsimp only
      have hsubp : strictSubM t p =
          ↑(folderChildPaths (cs2.map REntry.toChild)) +
            ((folderChildPaths (cs2.map REntry.toChild)).map (strictSubM t)).sum := by
        rw [strictSubM_eq hlook, REntry.strictSubKeys]
        exact dirs_decomp t cs2 hchild
      rw [hinv.dirs_eq, List.map_append, List.sum_append,
        List.Perm.sum_eq (hperm.map (strictSubM t))]
      simp only [List.map_cons, List.sum_cons, hsubp]
      simp only [← Multiset.coe_add, List.map_append, List.sum_append]
      abel
  | idle hres hfold => exact treeInv_checkDone hinv
  | cbFinish b hlt => exact ⟨hinv.valid, hinv.files_eq, hinv.dirs_eq⟩

theorem reach_treeInv {c : Nat} {root : String} {rcs : List REntry}
    {s : CrawlState} (hw : WFTree (.dirE root rcs))
    (h : Reachable c (treeListFn (.dirE root rcs)) root s) :
    TreeInv (.dirE root rcs) s := by
  induction h with
  | refl => exact treeInv_init root rcs
  | tail hsteps hstep ih => exact treeInv_step hw ih hstep

/-! ### Claim C3: the crawl collects exactly the reachable files -/

/-- C3: when a crawl over a well-formed remote tree resolves, the resolved
file list is a permutation of the tree's files — same set, no duplicate
paths, each file recorded exactly once — every folder of the tree was
expanded exactly once, and a callback was fired for exactly the recorded
files. -/
theorem crawl_collects_exactly_reachable_files
    (c : Nat) (root : String) (rcs : List REntry) (s : CrawlState)
    (r : List ListedChild)
    (hw : WFTree (.dirE root rcs))
    (h : Reachable c (treeListFn (.dirE root rcs)) root s)
    (hres : s.resolved = some r) :
    (↑r : Multiset ListedChild) = ↑(REntry.dirE root rcs).allFiles ∧
    (r.map (fun ch => ch.path)).Nodup ∧
    (∀ ch, ch ∈ r ↔ ch ∈ (REntry.dirE root rcs).allFiles) ∧
    (∀ ch ∈ (REntry.dirE root rcs).allFiles, r.count ch = 1) ∧
    s.launched.Nodup ∧
    (∀ p, p ∈ s.launched ↔ p ∈ keysOf (REntry.dirE root rcs)) ∧
    s.cbStarted = r := by
  have hb := reach_basicInv h
  have ht := reach_treeInv hw h
  obtain ⟨hfold, hpend, hinf, hfiles⟩ := hb.resolved_spec r hres
  have hfeq := ht.files_eq
  rw [hfold, hpend] at hfeq
  simp only [List.append_nil, List.map_nil, List.sum_nil, add_zero] at hfeq
  have hdeq := ht.dirs_eq
  rw [hfold, hpend] at hdeq
  simp only [List.append_nil, List.map_nil, List.sum_nil, add_zero,
    Multiset.coe_nil] at hdeq
  have hrfiles : (↑r : Multiset ListedChild) =
      ↑(REntry.dirE root rcs).allFiles := by
    rw [hfiles]
    exact hfeq.symm
  have hperm : r.Perm (REntry.dirE root rcs).allFiles :=
    Multiset.coe_eq_coe.mp hrfiles
  have hnd : ((REntry.dirE root rcs).allFiles.map (fun ch => ch.path)).Nodup :=
    filePaths_nodup hw
  have hlperm : s.launched.Perm (keysOf (REntry.dirE root rcs)) :=
    Multiset.coe_eq_coe.mp hdeq.symm
  refine ⟨hrfiles, ?_, ?_, ?_, ?_, ?_, ?_⟩
  · exact ((hperm.map (fun ch => ch.path)).nodup_iff).mpr hnd
  · intro ch
    exact hperm.mem_iff
  · intro ch hch
    rw [hperm.count_eq ch]
    exact List.count_eq_one_of_mem (hnd.of_map _) hch
  · exact (hlperm.nodup_iff).mpr (keys_nodup hw)
  · intro p
    exact hlperm.mem_iff
  · rw [hb.cb_eq, hfiles]

def c3Tree : REntry := .dirE "/r" [.fileE "/r/f.html" "html"]

def c3Mid : CrawlState :=
  { files := [], folders := [], inflight := 1, pending := ["/r"],
    resolved := none, launched := ["/r"], cbStarted := [], cbOutcomes := [] }

def c3End : CrawlState :=
  { files := [{ path := "/r/f.html", ext := some "html" }], folders := [],
    inflight := 0, pending := [],
    resolved := some [{ path := "/r/f.html", ext := some "html" }],
    launched := ["/r"],
    cbStarted := [{ path := "/r/f.html", ext := some "html" }],
    cbOutcomes := [] }

theorem c3End_reachable : Reachable 50 (treeListFn c3Tree) "/r" c3End := by
  have h1 : Step 50 (treeListFn c3Tree) (initState "/r") c3Mid :=
    step_cast (Step.launch (initState "/r") [] "/r" rfl rfl) (by decide)
  have h2 : Step 50 (treeListFn c3Tree) c3Mid c3End :=
    step_cast (Step.complete c3Mid "/r" (by decide)) (by decide)
  exact (Relation.ReflTransGen.single h1).tail h2

theorem crawl_collects_exactly_reachable_files_witness :
    (↑[({ path := "/r/f.html", ext := some "html" } : ListedChild)] :
        Multiset ListedChild) = ↑c3Tree.allFiles ∧
    ([({ path := "/r/f.html", ext := some "html" } : ListedChild)].map
        (fun ch => ch.path)).Nodup ∧
    (∀ ch, ch ∈ [({ path := "/r/f.html", ext := some "html" } : ListedChild)] ↔
      ch ∈ c3Tree.allFiles) ∧
    (∀ ch ∈ c3Tree.allFiles,
      [({ path := "/r/f.html", ext := some "html" } : ListedChild)].count ch = 1) ∧
    c3End.launched.Nodup ∧
    (∀ p, p ∈ c3End.launched ↔ p ∈ keysOf c3Tree) ∧
    c3End.cbStarted = [({ path := "/r/f.html", ext := some "html" } : ListedChild)] :=
  crawl_collects_exactly_reachable_files 50 "/r"
    [.fileE "/r/f.html" "html"] c3End
    [{ path := "/r/f.html", ext := some "html" }]
    (by rw [WFTree]; decide) c3End_reachable (by decide)

/-! ### Claim C7: failing callbacks never abort the traversal -/

/-- C7: in any execution over a well-formed remote tree — including one in
which every fired `onFile` callback has failed — the crawl still resolves
with the plain accumulated file list (no error value exists to propagate),
that list is complete, and each listing was processed in full: every file
child of every expanded folder was recorded and every folder child enqueued,
independently of callback outcomes. -/
theorem callback_failures_do_not_abort_crawl
    (c : Nat) (root : String) (rcs : List REntry) (s : CrawlState)
    (r : List ListedChild)
    (hw : WFTree (.dirE root rcs))
    (h : Reachable c (treeListFn (.dirE root rcs)) root s)
    (hres : s.resolved = some r)
    (hfail : ∀ b ∈ s.cbOutcomes, b = false) :
    r = s.files ∧
    (↑r : Multiset ListedChild) = ↑(REntry.dirE root rcs).allFiles ∧
    (∀ ch ∈ (REntry.dirE root rcs).allFiles, ch ∈ r) ∧
    (∀ (cs : List ListedChild) (st : CrawlState),
      (processChildren st cs).files = st.files ++ fileChildren cs ∧
      (processChildren st cs).folders = st.folders ++ folderChildPaths cs) := by
  have hb := reach_basicInv h
  have ht := reach_treeInv hw h
  obtain ⟨hfold, hpend, hinf, hfiles⟩ := hb.resolved_spec r hres
  have hfeq := ht.files_eq
  rw [hfold, hpend] at hfeq
  simp only [List.append_nil, List.map_nil, List.sum_nil, add_zero] at hfeq
  have hrfiles : (↑r : Multiset ListedChild) =
      ↑(REntry.dirE root rcs).allFiles := by
    rw [hfiles]
    exact hfeq.symm
  have hperm : r.Perm (REntry.dirE root rcs).allFiles :=
    Multiset.coe_eq_coe.mp hrfiles
  refine ⟨hfiles, hrfiles, ?_, ?_⟩
  · intro ch hch
    exact hperm.mem_iff.mpr hch
  · intro cs st
    rw [processChildren_spec]
    exact ⟨rfl, rfl⟩

def c7End : CrawlState :=
  { files := [{ path := "/r/f.html", ext := some "html" }], folders := [],
    inflight := 0, pending := [],
    resolved := some [{ path := "/r/f.html", ext := some "html" }],
    launched := ["/r"],
    cbStarted := [{ path := "/r/f.html", ext := some "html" }],
    cbOutcomes := [false] }

theorem c7End_reachable : Reachable 50 (treeListFn c3Tree) "/r" c7End := by
  have h3 : Step 50 (treeListFn c3Tree) c3End c7End :=
    step_cast (Step.cbFinish c3End false (by decide)) (by decide)
  exact c3End_reachable.tail h3

theorem callback_failures_do_not_abort_crawl_witness :
    ([({ path := "/r/f.html", ext := some "html" } : ListedChild)] =
      c7End.files) ∧
    ((↑[({ path := "/r/f.html", ext := some "html" } : ListedChild)] :
        Multiset ListedChild) = ↑c3Tree.allFiles) ∧
    (∀ ch ∈ c3Tree.allFiles,
      ch ∈ [({ path := "/r/f.html", ext := some "html" } : ListedChild)]) ∧
    (∀ (cs : List ListedChild) (st : CrawlState),
      (processChildren st cs).files = st.files ++ fileChildren cs ∧
      (processChildren st cs).folders = st.folders ++ folderChildPaths cs) :=
  callback_failures_do_not_abort_crawl 50 "/r"
    [.fileE "/r/f.html" "html"] c7End
    [{ path := "/r/f.html", ext := some "html" }]
    (by rw [WFTree]; decide) c7End_reachable (by decide) (by decide)

/-! ### Claim C8: a failed listing drops only its own subtree -/

theorem checkDone_files (s : CrawlState) : (checkDone s).files = s.files := by
  unfold checkDone
  split <;> rfl

theorem checkDone_folders (s : CrawlState) :
    (checkDone s).folders = s.folders := by
  unfold checkDone
  split <;> rfl

theorem checkDone_pending (s : CrawlState) :
    (checkDone s).pending = s.pending := by
  unfold checkDone
  split <;> rfl

theorem checkDone_inflight (s : CrawlState) :
    (checkDone s).inflight = s.inflight := by
  unfold checkDone
  split <;> rfl

theorem checkDone_launched (s : CrawlState) :
    (checkDone s).launched = s.launched := by
  unfold checkDone
  split <;> rfl

/-- The remote tree for the C8 run: the root lists a folder whose listing
errors and a sibling folder holding one file. -/
def listFnC8 : String → ListResult := fun p =>
  if p = "/r" then
    .ok [{ path := "/r/bad", ext := none }, { path := "/r/good", ext := none }]
  else if p = "/r/bad" then .err
  else if p = "/r/good" then
    .ok [{ path := "/r/good/f.html", ext := some "html" }]
  else .ok []

def c8S1 : CrawlState :=
  { files := [], folders := [], inflight := 1, pending := ["/r"],
    resolved := none, launched := ["/r"], cbStarted := [], cbOutcomes := [] }

def c8S2 : CrawlState :=
  { files := [], folders := ["/r/bad", "/r/good"], inflight := 0, pending := [],
    resolved := none, launched := ["/r"], cbStarted := [], cbOutcomes := [] }

def c8S3 : CrawlState :=
  { files := [], folders := ["/r/bad"], inflight := 1, pending := ["/r/good"],
    resolved := none, launched := ["/r", "/r/good"], cbStarted := [],
    cbOutcomes := [] }

def c8S4 : CrawlState :=
  { files := [{ path := "/r/good/f.html", ext := some "html" }],
    folders := ["/r/bad"], inflight := 0, pending := [],
    resolved := none, launched := ["/r", "/r/good"],
    cbStarted := [{ path := "/r/good/f.html", ext := some "html" }],
    cbOutcomes := [] }

def c8S5 : CrawlState :=
  { files := [{ path := "/r/good/f.html", ext := some "html" }],
    folders := [], inflight := 1, pending := ["/r/bad"],
    resolved := none, launched := ["/r", "/r/good", "/r/bad"],
    cbStarted := [{ path := "/r/good/f.html", ext := some "html" }],
    cbOutcomes := [] }

def c8S6 : CrawlState :=
  { files := [{ path := "/r/good/f.html", ext := some "html" }],
    folders := [], inflight := 0, pending := [],
    resolved := some [{ path := "/r/good/f.html", ext := some "html" }],
    launched := ["/r", "/r/good", "/r/bad"],
    cbStarted := [{ path := "/r/good/f.html", ext := some "html" }],
    cbOutcomes := [] }

/-- C8: an expansion whose `list` call yields a non-2xx response or throws
contributes nothing: the file list, the frontier and the expansion log are
unchanged and only the in-flight bookkeeping is decremented (the failed
folder's subtree is dropped); and a concrete crawl in which one of two
sibling folders fails still resolves with the surviving sibling's file. -/
theorem list_failure_drops_subtree_only :
    (∀ (f : String → ListResult) (p : String) (s : CrawlState),
      f p = .notOk ∨ f p = .err →
      (finishExpand f p s).files = s.files ∧
      (finishExpand f p s).folders = s.folders ∧
      (finishExpand f p s).launched = s.launched ∧
      (finishExpand f p s).inflight = s.inflight - 1 ∧
      (finishExpand f p s).pending = removeFirst p s.pending) ∧
    (∃ s : CrawlState, Reachable 50 listFnC8 "/r" s ∧
      s.resolved = some [{ path := "/r/good/f.html", ext := some "html" }]) := by
  constructor
  · intro f p s hf
    have hfe : finishExpand f p s =
        checkDone { s with pending := removeFirst p s.pending,
                           inflight := s.inflight - 1 } := by
      rcases hf with hf | hf
      · unfold finishExpand
        rw [hf]
      · unfold finishExpand
        rw [hf]
    rw [hfe, checkDone_files, checkDone_folders, checkDone_launched,
      checkDone_inflight, checkDone_pending]
    exact ⟨rfl, rfl, rfl, rfl, rfl⟩
  · refine ⟨c8S6, ?_, by decide⟩
    have h1 : Step 50 listFnC8 (initState "/r") c8S1 :=
      step_cast (Step.launch (initState "/r") [] "/r" rfl rfl) (by decide)
    have h2 : Step 50 listFnC8 c8S1 c8S2 :=
      step_cast (Step.complete c8S1 "/r" (by decide)) (by decide)
    have h3 : Step 50 listFnC8 c8S2 c8S3 :=
      step_cast (Step.launch c8S2 ["/r/bad"] "/r/good" rfl (by decide))
        (by decide)
    have h4 : Step 50 listFnC8 c8S3 c8S4 :=
      step_cast (Step.complete c8S3 "/r/good" (by decide)) (by decide)
    have h5 : Step 50 listFnC8 c8S4 c8S5 :=
      step_cast (Step.launch c8S4 [] "/r/bad" rfl (by decide)) (by decide)
    have h6 : Step 50 listFnC8 c8S5 c8S6 :=
      step_cast (Step.complete c8S5 "/r/bad" (by decide)) (by decide)
    exact (((((Relation.ReflTransGen.single h1).tail h2).tail h3).tail
      h4).tail h5).tail h6

def c8FailFn : String → ListResult := fun _ => .err

theorem list_failure_drops_subtree_only_witness :
    (finishExpand c8FailFn "/x" (initState "/r")).files = (initState "/r").files ∧
    (finishExpand c8FailFn "/x" (initState "/r")).folders =
      (initState "/r").folders ∧
    (finishExpand c8FailFn "/x" (initState "/r")).launched =
      (initState "/r").launched ∧
    (finishExpand c8FailFn "/x" (initState "/r")).inflight =
      (initState "/r").inflight - 1 ∧
    (finishExpand c8FailFn "/x" (initState "/r")).pending =
      removeFirst "/x" (initState "/r").pending :=
  list_failure_drops_subtree_only.1 c8FailFn "/x" (initState "/r")
    (Or.inr rfl)

/-! ### Claim C9: the crawl always reaches resolution

The environment model: every remote `list` call answers (with the tree's
listing, a non-2xx response, or an error) — `fetch` either responds or
throws, and the `setInterval` loop keeps firing — so termination is the
statement that from every reachable state a finite number of steps resolves
the call with the accumulated files.  The proof is by a weight measure on
the outstanding folders that every launch and every completion strictly
decreases. -/

/-- `listFn` behaves like the tree on some paths and fails on the rest —
the arbitrary pattern of remote-call outcomes of the claim. -/
def Refines (f : String → ListResult) (t : REntry) : Prop :=
  ∀ p, f p = treeListFn t p ∨ f p = .notOk ∨ f p = .err

/-- Weight of a subtree: two per folder plus one per file. -/
def nodeWeight (n : REntry) : Nat := 2 * n.dirNodes.length + n.allFiles.length

def pWeight (t : REntry) (p : String) : Nat :=
  match lookupS p t.dirNodes with
  | some n => nodeWeight n
  | none => 0

/-- The termination measure: frontier entries count full weight, in-flight
entries one less (their launch already happened). -/
def crawlMeasure (t : REntry) (s : CrawlState) : Nat :=
  (s.folders.map (pWeight t)).sum +
    (s.pending.map (fun p => pWeight t p - 1)).sum

/-- Paths in the frontier or in flight are folders of the tree. -/
def ValidOutstanding (t : REntry) (s : CrawlState) : Prop :=
  ∀ p ∈ s.folders ++ s.pending, ∃ n, lookupS p t.dirNodes = some n

theorem pWeight_pos {t : REntry} {p : String} {n : REntry}
    (hl : lookupS p t.dirNodes = some n) : 2 ≤ pWeight t p := by
  obtain ⟨cs2, hshape⟩ := dirNodes_shape t (p, n) (lookupS_mem hl)
  simp only at hshape
  subst hshape
  have hpw : pWeight t p = nodeWeight (.dirE p cs2) := by
    unfold pWeight
    rw [hl]
  rw [hpw]
  unfold nodeWeight
  rw [REntry.dirNodes_dirE]
  simp only [List.length_cons]
  omega

theorem weight_list_decomp (t : REntry) : ∀ (cs : List REntry),
    (∀ e ∈ cs, ∀ q qcs, e = REntry.dirE q qcs → lookupS q t.dirNodes = some e) →
    ((folderChildPaths (cs.map REntry.toChild)).map (pWeight t)).sum
        + (fileChildren (cs.map REntry.toChild)).length
      = 2 * ((cs.map REntry.dirNodes).flatten).length
        + ((cs.map REntry.allFiles).flatten).length := by
  intro cs
  induction cs with
  | nil => simp [fileChildren, folderChildPaths]
  | cons e cs ih =>
    intro H
    have Hrest : ∀ e2 ∈ cs, ∀ q qcs, e2 = REntry.dirE q qcs →
        lookupS q t.dirNodes = some e2 :=
      fun e2 h2 => H e2 (List.mem_cons_of_mem e h2)
    have ihr := ih Hrest
    cases e with
    | fileE q ex =>
      simp only [List.map_cons, List.flatten_cons, REntry.toChild,
        REntry.allFiles_fileE, REntry.dirNodes_fileE]
      rw [fileChildren_cons_file { path := q, ext := some ex } _ rfl,
        folderChildPaths_cons_file { path := q, ext := some ex } _ rfl]
      simp only [List.length_cons, List.length_append, List.nil_append,
        List.length_nil]
      omega
    | dirE q qcs =>
      have hlook : lookupS q t.dirNodes = some (.dirE q qcs) :=
        H (.dirE q qcs) (List.mem_cons_self _ _) q qcs rfl
      have hpw : pWeight t q = nodeWeight (.dirE q qcs) := by
        unfold pWeight
        rw [hlook]
      simp only [List.map_cons, List.flatten_cons, REntry.toChild]
      rw [fileChildren_cons_dir { path := q, ext := none } _ rfl,
        folderChildPaths_cons_dir { path := q, ext := none } _ rfl]
      simp only [List.map_cons, List.sum_cons, List.length_append, hpw]
      unfold nodeWeight
      omega

theorem weight_node (t : REntry) {p : String} {cs2 : List REntry}
    (hl : lookupS p t.dirNodes = some (.dirE p cs2))
    (hchild : ∀ e ∈ cs2, ∀ q qcs, e = REntry.dirE q qcs →
      lookupS q t.dirNodes = some e) :
    ((folderChildPaths (cs2.map REntry.toChild)).map (pWeight t)).sum
        + (fileChildren (cs2.map REntry.toChild)).length + 2
      = pWeight t p := by
  have hd := weight_list_decomp t cs2 hchild
  have hpw : pWeight t p = nodeWeight (.dirE p cs2) := by
    unfold pWeight
    rw [hl]
  rw [hpw]
  unfold nodeWeight
  rw [REntry.dirNodes_dirE, REntry.allFiles_dirE]
  simp only [List.length_cons]
  omega

theorem crawlMeasure_checkDone (t : REntry) (s : CrawlState) :
    crawlMeasure t (checkDone s) = crawlMeasure t s := by
  unfold crawlMeasure
  rw [checkDone_folders, checkDone_pending]

theorem crawlMeasure_launch {t : REntry} {s : CrawlState} {rest : List String}
    {p : String} (hfold : s.folders = rest ++ [p]) (hpos : 2 ≤ pWeight t p) :
    crawlMeasure t
      { s with folders := rest, inflight := s.inflight + 1,
               pending := p :: s.pending, launched := s.launched ++ [p] }
      < crawlMeasure t s := by
  unfold crawlMeasure
  dsimp only
  rw [hfold]
  simp only [List.map_append, List.sum_append, List.map_cons, List.sum_cons,
    List.map_nil, List.sum_nil]
  omega

theorem crawlMeasure_complete {t : REntry} {f : String → ListResult}
    {s : CrawlState} {p : String} (hp : p ∈ s.pending)
    (hw : WFTree t) (href : Refines f t)
    (hval : ∃ n, lookupS p t.dirNodes = some n) :
    crawlMeasure t (finishExpand f p s) < crawlMeasure t s := by
  obtain ⟨n, hl⟩ := hval
  have hpos : 2 ≤ pWeight t p := pWeight_pos hl
  have hperm : s.pending.Perm (p :: removeFirst p s.pending) :=
    removeFirst_perm hp
  have hpsum : (s.pending.map (fun q => pWeight t q - 1)).sum =
      (pWeight t p - 1) +
        ((removeFirst p s.pending).map (fun q => pWeight t q - 1)).sum := by
    rw [List.Perm.sum_eq (hperm.map (fun q => pWeight t q - 1))]
    simp [List.map_cons, List.sum_cons]
  obtain ⟨cs2, hshape⟩ := dirNodes_shape t (p, n) (lookupS_mem hl)
  simp only at hshape
  subst hshape
  rcases href p with hfp | hfp | hfp
  · have hfn : f p = .ok (cs2.map REntry.toChild) := by
      rw [hfp]
      unfold treeListFn
      rw [hl]
      rfl
    have hchild : ∀ e ∈ cs2, ∀ q qcs, e = REntry.dirE q qcs →
        lookupS q t.dirNodes = some e := child_dir_lookup hw hl
    have hwn := weight_node t hl hchild
    unfold finishExpand
    rw [hfn]
    dsimp only
    rw [processChildren_spec, crawlMeasure_checkDone]
    unfold crawlMeasure
    dsimp only
    rw [hpsum]
    simp only [List.map_append, List.sum_append]
    omega
  · unfold finishExpand
    rw [hfp]
    dsimp only
    rw [crawlMeasure_checkDone]
    unfold crawlMeasure
    dsimp only
    rw [hpsum]
    omega
  · unfold finishExpand
    rw [hfp]
    dsimp only
    rw [crawlMeasure_checkDone]
    unfold crawlMeasure
    dsimp only
    rw [hpsum]
    omega

theorem validOutstanding_step {t : REntry} {c : Nat} {f : String → ListResult}
    {s s2 : CrawlState} (hw : WFTree t) (href : Refines f t)
    (hv : ValidOutstanding t s) (hstep : Step c f s s2) :
    ValidOutstanding t s2 := by
  cases hstep with
  | launch rest p hres hfold =>
    intro q hq
    apply hv
    rw [hfold, List.append_assoc]
    simpa using hq
  | complete p hp =>
    have hfe : ∀ (mid : CrawlState), mid.folders = s.folders ∨
        (∃ cs2, lookupS p t.dirNodes = some (.dirE p cs2) ∧
          mid.folders = s.folders ++
            folderChildPaths (cs2.map REntry.toChild)) →
        True := fun _ _ => trivial
    intro q hq
    rcases href p with hfp | hfp | hfp
    · cases hl : lookupS p t.dirNodes with
      | none =>
        have hfn : f p = .notOk := by
          rw [hfp]
          unfold treeListFn
          rw [hl]
        rw [finishExpand, hfn] at hq
        dsimp only at hq
        rw [checkDone_folders, checkDone_pending] at hq
        dsimp only at hq
        rcases List.mem_append.mp hq with hq | hq
        · exact hv q (List.mem_append_left _ hq)
        · exact hv q (List.mem_append_right _ (removeFirst_mem hq))
      | some n =>
        obtain ⟨cs2, hshape⟩ := dirNodes_shape t (p, n) (lookupS_mem hl)
        simp only at hshape
        subst hshape
        have hfn : f p = .ok (cs2.map REntry.toChild) := by
          rw [hfp]
          unfold treeListFn
          rw [hl]
          rfl
        have hchild := child_dir_lookup hw hl
        rw [finishExpand, hfn] at hq
        dsimp only at hq
        rw [checkDone_folders, checkDone_pending] at hq
        rw [processChildren_spec] at hq
        dsimp only at hq
        rw [List.append_assoc, List.mem_append, List.mem_append] at hq
        rcases hq with hq | hq | hq
        · exact hv q (List.mem_append_left _ hq)
        · obtain ⟨qcs, hqcs⟩ := folderChildPaths_mem hq
          exact ⟨_, hchild _ hqcs q qcs rfl⟩
        · exact hv q (List.mem_append_right _ (removeFirst_mem hq))
    · rw [finishExpand, hfp] at hq
      dsimp only at hq
      rw [checkDone_folders, checkDone_pending] at hq
      dsimp only at hq
      rcases List.mem_append.mp hq with hq | hq
      · exact hv q (List.mem_append_left _ hq)
      · exact hv q (List.mem_append_right _ (removeFirst_mem hq))
    · rw [finishExpand, hfp] at hq
      dsimp only at hq
      rw [checkDone_folders, checkDone_pending] at hq
      dsimp only at hq
      rcases List.mem_append.mp hq with hq | hq
      · exact hv q (List.mem_append_left _ hq)
      · exact hv q (List.mem_append_right _ (removeFirst_mem hq))
  | idle hres hfold =>
    intro q hq
    rw [checkDone_folders, checkDone_pending] at hq
    exact hv q hq
  | cbFinish b hlt =>
    intro q hq
    exact hv q hq

theorem resolution_reachable_aux (t : REntry) (hw : WFTree t) (c : Nat)
    (f : String → ListResult) (href : Refines f t) :
    ∀ (n : Nat) (s : CrawlState), crawlMeasure t s < n → BasicInv s →
      ValidOutstanding t s →
      ∃ s2, Relation.ReflTransGen (Step c f) s s2 ∧
        s2.resolved = some s2.files := by
  intro n
  induction n with
  | zero =>
    intro s hm
    exact absurd hm (Nat.not_lt_zero _)
  | succ n ih =>
    intro s hm hb hv
    cases hres : s.resolved with
    | some r =>
      refine ⟨s, Relation.ReflTransGen.refl, ?_⟩
      rw [hres, (hb.resolved_spec r hres).2.2.2]
    | none =>
      rcases List.eq_nil_or_concat s.folders with hnil | ⟨rest, p, hcat⟩
      · cases hpend : s.pending with
        | nil =>
          have hinf : s.inflight = 0 := by
            rw [hb.inflight_eq, hpend]
            rfl
          have hstep : Step c f s (checkDone s) := Step.idle s hres hnil
          rw [checkDone, if_pos ⟨hres, hinf, hnil⟩] at hstep
          exact ⟨{ s with resolved := some s.files },
            Relation.ReflTransGen.single hstep, rfl⟩
        | cons q rest2 =>
          have hq : q ∈ s.pending := by
            rw [hpend]
            exact List.mem_cons_self q rest2
          have hstep : Step c f s (finishExpand f q s) := Step.complete s q hq
          have hval : ∃ m, lookupS q t.dirNodes = some m :=
            hv q (List.mem_append_right _ hq)
          have hm2 : crawlMeasure t (finishExpand f q s) < n := by
            have := crawlMeasure_complete hq hw href hval
            omega
          obtain ⟨s3, hsteps, hres3⟩ := ih (finishExpand f q s) hm2
            (basicInv_finish hb hq) (validOutstanding_step hw href hv hstep)
          exact ⟨s3, Relation.ReflTransGen.head hstep hsteps, hres3⟩
      · rw [List.concat_eq_append] at hcat
        have hstep : Step c f s
            { s with folders := rest, inflight := s.inflight + 1,
                     pending := p :: s.pending,
                     launched := s.launched ++ [p] } :=
          Step.launch s rest p hres hcat
        have hpmem : p ∈ s.folders ++ s.pending := by
          apply List.mem_append_left
          rw [hcat]
          exact List.mem_append_right _ (List.mem_cons_self p [])
        obtain ⟨m, hlm⟩ := hv p hpmem
        have hm2 : crawlMeasure t
            { s with folders := rest, inflight := s.inflight + 1,
                     pending := p :: s.pending,
                     launched := s.launched ++ [p] } < n := by
          have := crawlMeasure_launch hcat (pWeight_pos hlm)
          omega
        obtain ⟨s3, hsteps, hres3⟩ := ih _ hm2 (basicInv_step hb hstep)
          (validOutstanding_step hw href hv hstep)
        exact ⟨s3, Relation.ReflTransGen.head hstep hsteps, hres3⟩

theorem validOutstanding_init (root : String) (rcs : List REntry) :
    ValidOutstanding (.dirE root rcs) (initState root) := by
  intro p hp
  simp only [initState, List.append_nil, List.mem_singleton] at hp
  refine ⟨.dirE root rcs, ?_⟩
  rw [hp, REntry.dirNodes_dirE, lookupS, if_pos rfl]

theorem reach_validOutstanding {t : REntry} {c : Nat} {f : String → ListResult}
    {root : String} {rcs : List REntry} {s : CrawlState}
    (ht : t = .dirE root rcs) (hw : WFTree t) (href : Refines f t)
    (h : Reachable c f root s) : ValidOutstanding t s := by
  induction h with
  | refl =>
    subst ht
    exact validOutstanding_init root rcs
  | tail hsteps hstep ih => exact validOutstanding_step hw href ih hstep

/-- C9: over any well-formed remote tree and any pattern of `list` outcomes
— each call answering with the listing, a non-2xx response, or an error,
including the everything-fails pattern — every reachable state of the crawl
can finish: finitely many further steps resolve the call with the file list
accumulated at that point, and resolution carries exactly that list (there
is no rejection channel). -/
theorem crawl_always_resolves
    (c : Nat) (root : String) (rcs : List REntry) (f : String → ListResult)
    (s : CrawlState)
    (hw : WFTree (.dirE root rcs))
    (href : Refines f (.dirE root rcs))
    (h : Reachable c f root s) :
    ∃ s2, Relation.ReflTransGen (Step c f) s s2 ∧
      s2.resolved = some s2.files :=
  resolution_reachable_aux (.dirE root rcs) hw c f href
    (crawlMeasure (.dirE root rcs) s + 1) s (Nat.lt_succ_self _)
    (reach_basicInv h) (reach_validOutstanding rfl hw href h)

def c9FailFn : String → ListResult := fun _ => .err

theorem crawl_always_resolves_witness :
    ∃ s2, Relation.ReflTransGen (Step 50 c9FailFn) (initState "/r") s2 ∧
      s2.resolved = some s2.files :=
  crawl_always_resolves 50 "/r" [] c9FailFn (initState "/r")
    (by rw [WFTree]; decide) (fun _ => Or.inr (Or.inr rfl))
    Relation.ReflTransGen.refl

end DaCrawl
